import Mathlib

/-!
Verification of the core algorithms of the Real-Estate-Browser-Agent
repository: the viewport scanning loop of `property_screenshotter.py`
(`capture_property_screenshots`), the listing-line extractor of
`four_all_screenshots_analyzer.py` (`analyze_real_estate_images`), and the
reconciliation step of `update.py` (`check_property_updates`).

Strings are modelled as `List Char` internally (with `String` wrappers at the
interfaces), with hand-rolled structural primitives mirroring the Python
string operations used by the source (`str.strip`, `str.split`, slicing,
`str.replace`, `str.find` / `str.rfind`), so that every definition is
executable and kernel-reducible on concrete inputs.
-/

namespace REBA

/-! ## Character-list primitives mirroring Python string operations -/

/-- Python `str.strip()`: drop whitespace from both ends.  (Python also strips
`\x0b`/`\x0c`, which never occur in the inputs considered here.) -/
def trimChars (cs : List Char) : List Char :=
  ((cs.dropWhile Char.isWhitespace).reverse.dropWhile Char.isWhitespace).reverse

/-- Python `str.split('\n')`: split on newline characters, keeping empty
pieces; the empty string yields `[""]`, as in Python. -/
def splitLines : List Char → List (List Char)
  | [] => [[]]
  | c :: rest =>
    if c = '\n' then
      [] :: splitLines rest
    else
      match splitLines rest with
      | [] => [[c]]
      | l :: ls => (c :: l) :: ls

/-- Python `str.startswith('-')` (a one-character test, which is what the
source's list comprehension actually checks). -/
def startsWithHyphen : List Char → Bool
  | '-' :: _ => true
  | _ => false

/-- The two-character test `str.startswith('- ')` demanded by the oracle
contract in the spec. -/
def startsWithHyphenSpace : List Char → Bool
  | '-' :: ' ' :: _ => true
  | _ => false

/-- Python `str.replace(pat, '')` for a fixed pattern: remove non-overlapping
occurrences left to right.  The fuel argument (instantiated with the input
length) keeps the recursion structural; each step consumes at least one
character when the pattern is nonempty. -/
def removeAllFuel (pat : List Char) : Nat → List Char → List Char
  | _, [] => []
  | 0, cs => cs
  | f + 1, c :: rest =>
    if pat ≠ [] ∧ pat.isPrefixOf (c :: rest) then
      removeAllFuel pat f ((c :: rest).drop pat.length)
    else
      c :: removeAllFuel pat f rest

/-- Python `str.replace(pat, '')`. -/
def removeAll (pat cs : List Char) : List Char :=
  removeAllFuel pat cs.length cs

/-- Python `str.find(c)` for a single character: index of the first
occurrence, `none` when absent (Python returns `-1`). -/
def findIdxOf (c : Char) : List Char → Option Nat
  | [] => none
  | x :: rest => if x = c then some 0 else (findIdxOf c rest).map (· + 1)

/-! ## Listing extraction (`four_all_screenshots_analyzer.py`, lines 169-176)

```python
raw_response = response.choices[0].message.content.strip()
property_list = [
    line[2:].strip()
    for line in raw_response.split('\n')
    if line.strip().startswith('-')
]
```
-/

/-- The parsing step of `analyze_real_estate_images`: strip the raw oracle
response, split it on newlines, keep the lines whose stripped form starts
with `'-'`, and map each kept line to `line[2:].strip()` (the first two
characters of the *untrimmed* line are dropped). -/
def extract (s : String) : List String :=
  ((splitLines (trimChars s.data)).filter fun l => startsWithHyphen (trimChars l)).map
    fun l => (trimChars (l.drop 2)).asString

/-- The extraction rule exactly as the claim words it: split on line breaks
(no global strip), keep lines that after trimming start with the two-character
prefix `"- "`, and strip that prefix and surrounding whitespace from each kept
line. -/
def extractClaim (s : String) : List String :=
  ((splitLines s.data).filter fun l => startsWithHyphenSpace (trimChars l)).map
    fun l => (trimChars ((trimChars l).drop 2)).asString

/-- The amended description of the source's extraction, stated with a fold so
the equivalence with `extract` is a genuine statement: strip the whole
response, split on newlines, and for each line whose stripped form starts with
`'-'` emit `line[2:].strip()`, in order. -/
def extractAmendedSpec (s : String) : List String :=
  (splitLines (trimChars s.data)).foldr
    (fun l acc =>
      if startsWithHyphen (trimChars l) then (trimChars (l.drop 2)).asString :: acc else acc)
    []

/-! ## Reconciliation output parsing (`update.py`, lines 114-126 and 209-217)

```python
ai_response = response.choices[0].message.content.strip()
ai_response = ai_response.replace('```python', '').replace('```', '').strip()
start_idx = ai_response.find('[')
end_idx = ai_response.rfind(']') + 1
if start_idx != -1 and end_idx > 0:
    list_str = ai_response[start_idx:end_idx]
    new_properties = eval(list_str)
    ...
    return new_properties
else:
    ...
    return []
```
-/

/-- Scan a double-quoted string body: consume characters up to the closing
quote, returning the body and the remaining input.  `none` when the quote is
never closed. -/
def scanQuoted : List Char → Option (List Char × List Char)
  | [] => none
  | c :: rest =>
    if c = '"' then some ([], rest)
    else (scanQuoted rest).map fun p => (c :: p.1, p.2)

/-- Parse the items of a bracketed list of double-quoted strings, after the
opening `[`: skip whitespace and commas, read quoted strings, stop at `]`.
The fuel argument (instantiated with the input length plus one) keeps the
recursion structural. -/
def parseItems : Nat → List Char → Option (List (List Char))
  | 0, _ => none
  | _, [] => none
  | f + 1, c :: rest =>
    if c = ']' then some []
    else if c = '"' then
      match scanQuoted rest with
      | none => none
      | some (sbody, r) => (parseItems f r).map (sbody :: ·)
    else if c = ',' then parseItems f rest
    else if c.isWhitespace then parseItems f rest
    else none

/-- Modelled from the spec: the source evaluates the bracketed slice with
Python `eval`, whose full behaviour is external to a shallow embedding; per
the contract demanded by the prompt in `check_property_updates` (a raw list
of double-quoted strings) and the spec's literal-list reading of that step, it
is modelled as a strict parser of a bracketed, comma-separated list of
double-quoted strings. -/
def parseListLiteral (cs : List Char) : Option (List String) :=
  match cs with
  | '[' :: rest => (parseItems (rest.length + 1) rest).map (·.map List.asString)
  | _ => none

/-- The bracket-extraction of `check_property_updates`: Python
`s[s.find('['):s.rfind(']') + 1]`, with `none` when either bracket is absent
(the source's `start_idx != -1 and end_idx > 0` guard failing). -/
def bracketSlice (cs : List Char) : Option (List Char) :=
  match findIdxOf '[' cs, findIdxOf ']' cs.reverse with
  | some i, some j => some ((cs.drop i).take (cs.length - j - i))
  | _, _ => none

/-- The response-parsing stage of `check_property_updates`: strip, remove
code-block markers, strip again, slice between the first `[` and the last
`]`, and parse the slice as a list literal.  `none` covers both failure exits
of the source (the missing-bracket branch and the `eval` exception handler). -/
def checkUpdatesParse (resp : String) : Option (List String) :=
  let cleaned :=
    trimChars (removeAll ("```".data) (removeAll ("```python".data) (trimChars resp.data)))
  match bracketSlice cleaned with
  | none => none
  | some slice => parseListLiteral slice

/-- The value `check_property_updates` actually returns to its caller for a
given oracle response: the parsed list on success, and `[]` on either failure
exit (both `return []` in the source). -/
def checkUpdatesReturn (resp : String) : List String :=
  (checkUpdatesParse resp).getD []

/-! ## Reconciliation matching (`update.py`, lines 79-110)

The matching step itself is performed by an external LLM
(`client.chat.completions.create` on the prompt at lines 84-106); the
repository contains no matching algorithm.  The definitions below are
modelled from the spec (and from the prompt's own rules): two identifiers
denote the same listing iff their base names --- the text before any
parenthetical --- agree case- and whitespace-insensitively, and an entry of
the current set is new iff no existing entry shares its base name. -/

/-- Modelled from the spec: the normalized base-name identity of a listing
identifier --- the text before any parenthetical disambiguator, with all
whitespace removed and letters lowercased. -/
def normalizeKey (s : String) : String :=
  (((s.data.takeWhile fun c => c != '(').filter fun c => !c.isWhitespace).map
    Char.toLower).asString

/-- Modelled from the spec: an entry of the current set is new iff no entry
of the existing set shares its base-name identity. -/
def isNewListing (existing : List String) (x : String) : Bool :=
  existing.all fun e => normalizeKey e != normalizeKey x

/-- Modelled from the spec: the reconciliation contract --- the subsequence
of the current set whose members are new relative to the existing set, in the
current set's order. -/
def reconcile (existing current : List String) : List String :=
  current.filter fun x => isNewListing existing x

/-! ## The viewport scanning loop (`property_screenshotter.py`, lines 49-125)

The loop is embedded as a fuel-indexed step function producing the trace of
page-driver events (scrolls and captures).  `sched i` is the document height
the page reports when remeasured at the end of loop iteration `i` (the
source's `document.documentElement.scrollHeight` read); waits are omitted as
they carry no data. -/

/-- A page-driver event issued by `capture_property_screenshots`:
a smooth `window.scrollTo`, the lazy-load jiggle `window.scrollBy(0, 150)`,
an instant `window.scrollTo(0, off)`, or a viewport screenshot saved as
`screenshot_{idx}.png` at scroll offset `off`. -/
inductive Ev where
  | scrollSmooth (off : Nat)
  | scrollByDelta (delta : Nat)
  | scrollTo (off : Nat)
  | capture (idx : Nat) (off : Nat)
deriving DecidableEq, Repr

/-- `scroll_step = int(viewport_height * 0.8)`.  For every viewport height a
browser can report (far below `2^50`), the float truncation in the source
equals `4 * v / 5` in exact arithmetic, which is how it is embedded. -/
def scrollStep (v : Nat) : Nat :=
  4 * v / 5

/-- One run of the source's `while current_scroll < page_height` loop:
smooth-scroll to `cur`, jiggle, reposition, capture `screenshot_{cnt}` at
`cur`, advance `cur` by the step, remeasure the height (`sched cnt`) and grow
`page_height` if the page grew.  Returns the event trace, the next screenshot
index, and the final measured height; `none` when the fuel runs out before
the loop exits. -/
def scanLoop (sched : Nat → Nat) (s : Nat) : Nat → Nat → Nat → Nat → Option (List Ev × Nat × Nat)
  | 0, _, _, _ => none
  | fuel + 1, cur, h, cnt =>
    if cur < h then
      (scanLoop sched s fuel (cur + s) (if sched cnt > h then sched cnt else h) (cnt + 1)).map
        fun r =>
          (Ev.scrollSmooth cur :: Ev.scrollByDelta 150 :: Ev.scrollTo cur ::
            Ev.capture cnt cur :: r.1, r.2)
    else
      some ([], cnt, h)

/-- The whole of `capture_property_screenshots` after the initial load wait:
run the stepped loop from offset 0, then scroll to the (final) page height,
take one last screenshot there, and smooth-scroll back to the top.  Returns
the event trace and the final measured document height; each `capture` event
corresponds to exactly one path appended to the returned
`screenshot_paths`. -/
def capture_property_screenshots (sched : Nat → Nat) (v h0 fuel : Nat) :
    Option (List Ev × Nat) :=
  (scanLoop sched (scrollStep v) fuel 0 h0 0).map fun r =>
    (r.1 ++ [Ev.scrollTo r.2.2, Ev.capture r.2.1 r.2.2, Ev.scrollSmooth 0], r.2.2)

/-- The sequence of (screenshot index, capture offset) pairs of a trace, in
capture order. -/
def captureEvents : List Ev → List (Nat × Nat)
  | [] => []
  | Ev.capture i o :: t => (i, o) :: captureEvents t
  | _ :: t => captureEvents t

/-- The capture offsets of a trace, in capture order. -/
def offsetsOf (t : List Ev) : List Nat :=
  (captureEvents t).map Prod.snd

/-- The indexed captures the stepped loop performs when it runs `k`
iterations starting at screenshot index `cnt` and offset `base` with step
`s`. -/
def capsAux (s : Nat) : Nat → Nat → Nat → List (Nat × Nat)
  | 0, _, _ => []
  | k + 1, cnt, base => (cnt, base) :: capsAux s k (cnt + 1) (base + s)

/-- The concrete trace of a completed scan with viewport height 5 (step 4),
initial document height 1 and no dynamic growth: one loop capture at offset
0, the final capture at the document height 1, and the closing scroll back to
the top.  Used to instantiate the scan theorems. -/
def scanTraceEx : List Ev :=
  [Ev.scrollSmooth 0, Ev.scrollByDelta 150, Ev.scrollTo 0, Ev.capture 0 0,
   Ev.scrollTo 1, Ev.capture 1 1, Ev.scrollSmooth 0]

/-! ## Shared helper lemmas -/

theorem captureEvents_append (a b : List Ev) :
    captureEvents (a ++ b) = captureEvents a ++ captureEvents b := by
  induction a with
  | nil => rfl
  | cons e t ih => cases e <;> simp [captureEvents, ih]

theorem capsAux_length (s : Nat) : ∀ k cnt base, (capsAux s k cnt base).length = k := by
  intro k
  induction k with
  | zero => intro cnt base; rfl
  | succ k ih => intro cnt base; simp [capsAux, ih]

theorem capsAux_map_fst (s : Nat) :
    ∀ k cnt base, (capsAux s k cnt base).map Prod.fst = List.range' cnt k := by
  intro k
  induction k with
  | zero => intro cnt base; rfl
  | succ k ih =>
      intro cnt base
      rw [List.range'_succ]
      simp [capsAux, ih]

theorem capsAux_map_snd (s : Nat) :
    ∀ k cnt base, (capsAux s k cnt base).map Prod.snd = List.range' base k s := by
  intro k
  induction k with
  | zero => intro cnt base; rfl
  | succ k ih =>
      intro cnt base
      rw [List.range'_succ]
      simp [capsAux, ih]

theorem capsAux_snd_lt (s hf : Nat) :
    ∀ k cnt base, (∀ j, j < k → base + j * s < hf) →
      ∀ p ∈ capsAux s k cnt base, p.2 < hf := by
  intro k
  induction k with
  | zero => intro cnt base _ p hp; simp [capsAux] at hp
  | succ k ih =>
      intro cnt base hlt p hp
      rw [capsAux, List.mem_cons] at hp
      rcases hp with rfl | hp
      · have := hlt 0 (Nat.succ_pos k); simpa using this
      · refine ih (cnt + 1) (base + s) (fun j hj => ?_) p hp
        have := hlt (j + 1) (Nat.succ_lt_succ hj)
        have hm : (j + 1) * s = j * s + s := Nat.succ_mul j s
        omega

theorem chain_stepped (v s hf : Nat) (hs : s ≤ v) :
    ∀ k base, hf ≤ base + k * s → (∀ j, j < k → base + j * s < hf) →
      List.Chain' (fun a b => a ≤ b ∧ b ≤ a + v) (List.range' base k s ++ [hf]) := by
  intro k
  induction k with
  | zero =>
      intro base hub hlt
      simp
  | succ k ih =>
      intro base hub hlt
      rw [List.range'_succ]
      have hbase : base < hf := by have := hlt 0 (Nat.succ_pos k); simpa using this
      have htail : List.Chain' (fun a b => a ≤ b ∧ b ≤ a + v)
          (List.range' (base + s) k s ++ [hf]) := by
        refine ih (base + s) ?_ ?_
        · have hm : (k + 1) * s = k * s + s := Nat.succ_mul k s
          omega
        · intro j hj
          have := hlt (j + 1) (Nat.succ_lt_succ hj)
          have hm : (j + 1) * s = j * s + s := Nat.succ_mul j s
          omega
      cases k with
      | zero =>
          simp only [List.range'_zero, List.nil_append] at htail ⊢
          have hm : 1 * s = s := Nat.one_mul s
          exact List.chain'_cons.mpr ⟨⟨by omega, by omega⟩, htail⟩
      | succ k' =>
          rw [List.range'_succ] at htail ⊢
          exact List.chain'_cons.mpr ⟨⟨Nat.le_add_right base s, by omega⟩, htail⟩

theorem chain_cover (v : Nat) :
    ∀ (l : List Nat) (a hTop : Nat), l.head? = some a → l.getLast? = some hTop →
      List.Chain' (fun x y => x ≤ y ∧ y ≤ x + v) l →
      ∀ y, a ≤ y → y ≤ hTop → ∃ o ∈ l, o ≤ y ∧ y ≤ o + v := by
  intro l
  induction l with
  | nil => intro a hTop h1; simp at h1
  | cons x t ih =>
      intro a hTop h1 h2 h3 y hay hyH
      simp only [List.head?_cons, Option.some.injEq] at h1
      subst h1
      cases t with
      | nil =>
          simp only [List.getLast?_singleton, Option.some.injEq] at h2
          subst h2
          exact ⟨x, List.mem_cons_self x [], hay, by omega⟩
      | cons b t' =>
          rw [List.getLast?_cons_cons] at h2
          have hchain := List.chain'_cons.mp h3
          by_cases hyb : b ≤ y
          · obtain ⟨o, ho, h5, h6⟩ := ih b hTop rfl h2 hchain.2 y hyb hyH
            exact ⟨o, List.mem_cons_of_mem x ho, h5, h6⟩
          · exact ⟨x, List.mem_cons_self x (b :: t'), hay, by omega⟩

theorem scanLoop_shape (sched : Nat → Nat) (s : Nat) :
    ∀ (fuel cur h cnt : Nat) (t : List Ev) (cnt' hf : Nat),
      scanLoop sched s fuel cur h cnt = some (t, cnt', hf) →
      ∃ k, cnt' = cnt + k ∧ captureEvents t = capsAux s k cnt cur ∧
        h ≤ hf ∧ hf ≤ cur + k * s ∧ ∀ j, j < k → cur + j * s < hf := by
  intro fuel
  induction fuel with
  | zero => intro cur h cnt t cnt' hf hrun; simp [scanLoop] at hrun
  | succ f ih =>
      intro cur h cnt t cnt' hf hrun
      rw [scanLoop] at hrun
      by_cases hc : cur < h
      · rw [if_pos hc] at hrun
        cases hrec : scanLoop sched s f (cur + s)
            (if sched cnt > h then sched cnt else h) (cnt + 1) with
        | none => rw [hrec] at hrun; simp at hrun
        | some r =>
            obtain ⟨t', cnt'', hf'⟩ := r
            rw [hrec] at hrun
            simp only [Option.map_some', Option.some.injEq, Prod.mk.injEq] at hrun
            obtain ⟨h1, h2, h3⟩ := hrun
            subst h1; subst h2; subst h3
            obtain ⟨k, hk, hcap, hh, hub, hlt⟩ := ih (cur + s) _ (cnt + 1) t' cnt'' hf' hrec
            have hh' : h ≤ (if sched cnt > h then sched cnt else h) := by split <;> omega
            refine ⟨k + 1, by omega, ?_, by omega, ?_, ?_⟩
            · simp [captureEvents, capsAux, hcap]
            · have hm : (k + 1) * s = k * s + s := Nat.succ_mul k s
              omega
            · intro j hj
              cases j with
              | zero => simp; omega
              | succ j' =>
                  have := hlt j' (by omega)
                  have hm : (j' + 1) * s = j' * s + s := Nat.succ_mul j' s
                  omega
      · rw [if_neg hc] at hrun
        simp only [Option.some.injEq, Prod.mk.injEq] at hrun
        obtain ⟨h1, h2, h3⟩ := hrun
        subst h1; subst h2; subst h3
        exact ⟨0, by omega, by simp [captureEvents, capsAux], Nat.le_refl h,
          by omega, fun j hj => absurd hj (by omega)⟩

theorem scanLoop_dom (sched : Nat → Nat) (s bound : Nat)
    (hB : ∀ i, sched i ≤ bound) :
    ∀ f cur h cnt, h ≤ bound → bound ≤ cur + f * s →
      ∃ r, scanLoop sched s (f + 1) cur h cnt = some r := by
  intro f
  induction f with
  | zero =>
      intro cur h cnt hh hb
      have hc : ¬ cur < h := by omega
      exact ⟨_, by rw [scanLoop, if_neg hc]⟩
  | succ f ih =>
      intro cur h cnt hh hb
      by_cases hc : cur < h
      · have hh' : (if sched cnt > h then sched cnt else h) ≤ bound := by
          split
          · exact hB cnt
          · exact hh
        have hb' : bound ≤ (cur + s) + f * s := by
          have hm : (f + 1) * s = f * s + s := Nat.succ_mul f s
          omega
        obtain ⟨r, hr⟩ := ih (cur + s) _ (cnt + 1) hh' hb'
        exact ⟨_, by rw [scanLoop, if_pos hc, hr]; rfl⟩
      · exact ⟨_, by rw [scanLoop, if_neg hc]⟩

theorem bounded_of_eventually_const :
    ∀ (bigN : Nat) (sched : Nat → Nat) (c : Nat), (∀ i, bigN ≤ i → sched i = c) →
      ∃ bound, ∀ i, sched i ≤ bound := by
  intro bigN
  induction bigN with
  | zero =>
      intro sched c hc
      exact ⟨c, fun i => Nat.le_of_eq (hc i (Nat.zero_le i))⟩
  | succ n ih =>
      intro sched c hc
      obtain ⟨bound, hB⟩ := ih (fun i => sched (i + 1)) c (fun i hi => hc (i + 1) (by omega))
      refine ⟨max (sched 0) bound, fun i => ?_⟩
      cases i with
      | zero => exact Nat.le_max_left ..
      | succ i => exact Nat.le_trans (hB i) (Nat.le_max_right ..)

theorem filter_map_eq_foldr {α β : Type} (p : α → Bool) (f : α → β) :
    ∀ l : List α, (l.filter p).map f =
      l.foldr (fun a acc => if p a then f a :: acc else acc) [] := by
  intro l
  induction l with
  | nil => rfl
  | cons a t ih =>
      by_cases h : p a
      · simp [List.filter_cons, h, ih]
      · simp [List.filter_cons, h, ih]

theorem findIdxOf_eq_none (c : Char) :
    ∀ cs : List Char, c ∉ cs → findIdxOf c cs = none := by
  intro cs
  induction cs with
  | nil => intro _; rfl
  | cons x t ih =>
      intro h
      have hx : ¬ (x = c) := fun e => h (by rw [e]; exact List.mem_cons_self c t)
      rw [findIdxOf, if_neg hx, ih (fun m => h (List.mem_cons_of_mem x m))]
      rfl

theorem bracketSlice_eq_none (cs : List Char) (h : '[' ∉ cs) : bracketSlice cs = none := by
  rw [bracketSlice, findIdxOf_eq_none _ cs h]

theorem capture_shape (sched : Nat → Nat) (v h0 fuel : Nat) (tr : List Ev) (hf : Nat)
    (hdone : capture_property_screenshots sched v h0 fuel = some (tr, hf)) :
    ∃ t cnt, scanLoop sched (scrollStep v) fuel 0 h0 0 = some (t, cnt, hf) ∧
      tr = t ++ [Ev.scrollTo hf, Ev.capture cnt hf, Ev.scrollSmooth 0] := by
  rw [capture_property_screenshots] at hdone
  cases hcall : scanLoop sched (scrollStep v) fuel 0 h0 0 with
  | none => rw [hcall] at hdone; simp at hdone
  | some r =>
      obtain ⟨t, cnt, hfl⟩ := r
      rw [hcall, Option.map_some'] at hdone
      simp only [Option.some.injEq, Prod.mk.injEq] at hdone
      obtain ⟨h1, h2⟩ := hdone
      subst h2
      exact ⟨t, cnt, rfl, h1.symm⟩

theorem scanLoop_zero_step_stuck :
    ∀ fuel cnt, scanLoop (fun _ => 1) 0 fuel 0 1 cnt = none := by
  intro fuel
  induction fuel with
  | zero => intro cnt; rfl
  | succ f ih =>
      intro cnt
      rw [scanLoop, if_pos (by decide : (0:Nat) < 1)]
      simp only [ite_self, Nat.add_zero]
      rw [ih (cnt + 1)]
      rfl

/-! ## Claim theorems -/

/-- C1: in every completed scan with viewport height `v > 0` and final
measured document height `hf`, the capture offsets start at 0, end at `hf`,
are nondecreasing with consecutive offsets differing by at most `v` (so the
captured viewports cover `[0, hf]`), every point of `[0, hf]` lies in some
captured viewport, and the loop offsets advance by exactly
`floor(0.8 * v)` per iteration. -/
theorem scanner_offsets_cover (sched : Nat → Nat) (v h0 fuel : Nat) (tr : List Ev) (hf : Nat)
    (hv : 0 < v)
    (hdone : capture_property_screenshots sched v h0 fuel = some (tr, hf)) :
    (offsetsOf tr).head? = some 0 ∧
    (offsetsOf tr).getLast? = some hf ∧
    List.Chain' (fun a b => a ≤ b ∧ b ≤ a + v) (offsetsOf tr) ∧
    (∀ y, y ≤ hf → ∃ o ∈ offsetsOf tr, o ≤ y ∧ y ≤ o + v) ∧
    ∃ k, offsetsOf tr = List.range' 0 k (scrollStep v) ++ [hf] := by
  obtain ⟨t, cnt, hcall, rfl⟩ := capture_shape sched v h0 fuel tr hf hdone
  obtain ⟨k, hk, hcap, hh, hub, hlt⟩ :=
    scanLoop_shape sched (scrollStep v) fuel 0 h0 0 t cnt hf hcall
  have hoff : offsetsOf (t ++ [Ev.scrollTo hf, Ev.capture cnt hf, Ev.scrollSmooth 0]) =
      List.range' 0 k (scrollStep v) ++ [hf] := by
    rw [offsetsOf, captureEvents_append, hcap]
    simp [captureEvents, capsAux_map_snd]
  rw [hoff]
  have hs_le : scrollStep v ≤ v := by rw [scrollStep]; omega
  have hhead : (List.range' 0 k (scrollStep v) ++ [hf]).head? = some 0 := by
    cases k with
    | zero =>
        have hf0 : hf = 0 := by omega
        simp [hf0]
    | succ k' => rw [List.range'_succ]; rfl
  have hlast : (List.range' 0 k (scrollStep v) ++ [hf]).getLast? = some hf := by
    simp
  have hchain : List.Chain' (fun a b => a ≤ b ∧ b ≤ a + v)
      (List.range' 0 k (scrollStep v) ++ [hf]) :=
    chain_stepped v (scrollStep v) hf hs_le k 0 hub hlt
  refine ⟨hhead, hlast, hchain, ?_, ⟨k, rfl⟩⟩
  intro y hy
  exact chain_cover v _ 0 hf hhead hlast hchain y (Nat.zero_le y) hy

/-- C1 witness: the cover theorem instantiated on a concrete completed scan
(viewport height 5, document height 1, no dynamic growth). -/
theorem scanner_offsets_cover_witness :
    (0 < 5 ∧ capture_property_screenshots (fun _ => 1) 5 1 2 = some (scanTraceEx, 1)) ∧
    ((offsetsOf scanTraceEx).head? = some 0 ∧
     (offsetsOf scanTraceEx).getLast? = some 1 ∧
     List.Chain' (fun a b => a ≤ b ∧ b ≤ a + 5) (offsetsOf scanTraceEx) ∧
     (∀ y, y ≤ 1 → ∃ o ∈ offsetsOf scanTraceEx, o ≤ y ∧ y ≤ o + 5) ∧
     ∃ k, offsetsOf scanTraceEx = List.range' 0 k (scrollStep 5) ++ [1]) :=
  ⟨⟨by decide, by decide⟩,
    scanner_offsets_cover (fun _ => 1) 5 1 2 scanTraceEx 1 (by decide) (by decide)⟩

/-- C2: every completed scan's trace consists of the loop trace followed by
exactly one final capture whose offset is the last-measured document height
`hf` --- strictly above every loop capture offset --- followed by the scroll
back to offset 0, which is the last event before the function returns. -/
theorem scanner_final_capture (sched : Nat → Nat) (v h0 fuel : Nat) (tr : List Ev) (hf : Nat)
    (hdone : capture_property_screenshots sched v h0 fuel = some (tr, hf)) :
    ∃ pre, tr = pre ++ [Ev.capture (captureEvents pre).length hf, Ev.scrollSmooth 0] ∧
      (∀ p ∈ captureEvents pre, p.2 < hf) ∧
      captureEvents tr = captureEvents pre ++ [((captureEvents pre).length, hf)] := by
  obtain ⟨t, cnt, hcall, rfl⟩ := capture_shape sched v h0 fuel tr hf hdone
  obtain ⟨k, hk, hcap, hh, hub, hlt⟩ :=
    scanLoop_shape sched (scrollStep v) fuel 0 h0 0 t cnt hf hcall
  have hlen : (captureEvents (t ++ [Ev.scrollTo hf])).length = cnt := by
    rw [captureEvents_append, hcap]
    simp [captureEvents, capsAux_length, hk]
  refine ⟨t ++ [Ev.scrollTo hf], ?_, ?_, ?_⟩
  · rw [hlen]; simp
  · intro p hp
    rw [captureEvents_append, hcap] at hp
    simp only [captureEvents, List.append_nil] at hp
    exact capsAux_snd_lt (scrollStep v) hf k 0 0 hlt p hp
  · rw [hlen, captureEvents_append, captureEvents_append, hcap]
    simp [captureEvents, hk]

/-- C2 witness: the final-capture theorem instantiated on a concrete
completed scan. -/
theorem scanner_final_capture_witness :
    capture_property_screenshots (fun _ => 1) 5 1 2 = some (scanTraceEx, 1) ∧
    ∃ pre, scanTraceEx = pre ++ [Ev.capture (captureEvents pre).length 1, Ev.scrollSmooth 0] ∧
      (∀ p ∈ captureEvents pre, p.2 < 1) ∧
      captureEvents scanTraceEx = captureEvents pre ++ [((captureEvents pre).length, 1)] :=
  ⟨by decide, scanner_final_capture (fun _ => 1) 5 1 2 scanTraceEx 1 (by decide)⟩

/-- C3 counterexample: the source keeps any line whose stripped form starts
with the single character `'-'`, not the two-character prefix `"- "`: on the
response `"-Ab"` the code produces `["b"]` (it drops the first two characters
of the line), while the claimed rule would drop the line and produce `[]`. -/
theorem extract_prefix_counterexample :
    extract "-Ab" = ["b"] ∧ extractClaim "-Ab" = [] :=
  ⟨by decide, by decide⟩

/-- C3 (amended): extraction strips the whole response, splits it on line
breaks, keeps exactly the lines that after trimming start with the single
character `'-'`, maps each kept line to `line[2:].strip()` (dropping the
first two characters of the untrimmed line), in order of appearance; the
claim's example response still yields the claimed listing sequence, and a
response with zero qualifying lines yields the empty list rather than an
error. -/
theorem extract_amended :
    (∀ s, extract s = extractAmendedSpec s) ∧
    extract "- Alpha Tower\n- Beta Court (10 Elm St)\n- Beta Court (20 Elm St)" =
      ["Alpha Tower", "Beta Court (10 Elm St)", "Beta Court (20 Elm St)"] ∧
    extract "no hyphen lines\nat all" = [] := by
  refine ⟨fun s => ?_, by decide, by decide⟩
  rw [extract, extractAmendedSpec]
  exact filter_map_eq_foldr _ _ _

/-- C4 counterexample: a response with no bracket pair is not surfaced to
the caller distinguishably --- `check_property_updates` returns `[]` on the
missing-bracket branch, the same value it returns for the well-formed empty
list `"[]"`, even though the internal parse outcome differs. -/
theorem bracket_failure_counterexample :
    checkUpdatesReturn "no list here" = checkUpdatesReturn "[]" ∧
    checkUpdatesParse "no list here" = none ∧
    checkUpdatesParse "[]" = some [] :=
  ⟨by decide, by decide, by decide⟩

/-- C4 (amended): reconciliation output parsing locates the first `[` and
the last `]` and parses the enclosed text as a literal list of strings, so
surrounding prose still parses; a response with no bracket pair fails the
parse internally (and an error is printed), but the function then returns
the empty list --- the same return value as a well-formed empty list --- so
the caller cannot distinguish the two outcomes from the returned value. -/
theorem bracket_parse_amended :
    checkUpdatesParse "Here is the result: [\"Cedar Row\"]" = some ["Cedar Row"] ∧
    (∀ cs : List Char, '[' ∉ cs → bracketSlice cs = none) ∧
    checkUpdatesReturn "no list here" = [] ∧
    checkUpdatesReturn "[]" = [] :=
  ⟨by decide, fun cs h => bracketSlice_eq_none cs h, by decide, by decide⟩

/-- C4 witness: the amended bracket-parsing theorem applied at a concrete
bracket-free input. -/
theorem bracket_parse_amended_witness :
    '[' ∉ ("abc".data) ∧ bracketSlice ("abc".data) = none :=
  ⟨by decide, bracket_parse_amended.2.1 ("abc".data) (by decide)⟩

/-- C5: under the matching contract, an entry of the current set is new iff
no entry of the existing set shares its normalized base-name identity (text
before any parenthetical, case- and whitespace-insensitive); in particular a
parenthetical-only difference never classifies an entry as new:
reconciling `["Harbor Plaza (123 Main St)", "Cedar Row"]` against
`["Harbor Plaza"]` yields exactly `["Cedar Row"]`. -/
theorem reconcile_new_iff_basename :
    (∀ existing current x, x ∈ reconcile existing current ↔
      x ∈ current ∧ ∀ e ∈ existing, normalizeKey e ≠ normalizeKey x) ∧
    reconcile ["Harbor Plaza"] ["Harbor Plaza (123 Main St)", "Cedar Row"] = ["Cedar Row"] := by
  constructor
  · intro existing current x
    simp [reconcile, isNewListing, List.mem_filter, List.all_eq_true, bne_iff_ne]
  · decide

/-- C5 witness: the membership characterization applied at a concrete
input. -/
theorem reconcile_new_iff_basename_witness :
    "Cedar Row" ∈ reconcile ["Harbor Plaza"] ["Harbor Plaza (123 Main St)", "Cedar Row"] :=
  (reconcile_new_iff_basename.1 _ _ _).mpr ⟨by decide, by decide⟩

/-- C6: reconciling any listing set against itself yields the empty result,
and reconciling against an empty existing set yields the whole current set
with its order preserved. -/
theorem reconcile_self_empty :
    (∀ s : List String, reconcile s s = []) ∧
    (∀ s : List String, reconcile [] s = s) := by
  constructor
  · intro s
    rw [reconcile, List.filter_eq_nil_iff]
    intro x hx
    simp [isNewListing, List.all_eq_true, bne_iff_ne]
    exact ⟨x, hx, rfl⟩
  · intro s
    simp [reconcile, isNewListing]

/-- C7: the reconciliation result is always a subsequence (hence a subset)
of the current listing set: it never contains a listing absent from the
current snapshot. -/
theorem reconcile_subset_current :
    (∀ existing current : List String, (reconcile existing current).Sublist current) ∧
    (∀ (existing current : List String) (x : String),
      x ∈ reconcile existing current → x ∈ current) := by
  constructor
  · intro existing current
    exact List.filter_sublist current
  · intro existing current x hx
    exact (List.filter_sublist current).subset hx

/-- C7 witness: the subset property applied at a concrete input. -/
theorem reconcile_subset_current_witness :
    "Cedar Row" ∈ reconcile [] ["Cedar Row"] ∧ "Cedar Row" ∈ (["Cedar Row"] : List String) :=
  ⟨by decide, reconcile_subset_current.2 [] ["Cedar Row"] "Cedar Row" (by decide)⟩

/-- C8: in every completed scan the screenshot filename indices, in capture
order, are exactly `0, 1, ..., n-1`: contiguous from 0, none skipped, none
duplicated. -/
theorem screenshot_indices_contiguous (sched : Nat → Nat) (v h0 fuel : Nat)
    (tr : List Ev) (hf : Nat)
    (hdone : capture_property_screenshots sched v h0 fuel = some (tr, hf)) :
    (captureEvents tr).map Prod.fst = List.range ((captureEvents tr).length) := by
  obtain ⟨t, cnt, hcall, rfl⟩ := capture_shape sched v h0 fuel tr hf hdone
  obtain ⟨k, hk, hcap, hh, hub, hlt⟩ :=
    scanLoop_shape sched (scrollStep v) fuel 0 h0 0 t cnt hf hcall
  rw [captureEvents_append, hcap]
  simp [captureEvents, capsAux_map_fst, capsAux_length, hk, List.range_succ,
    List.range_eq_range']

/-- C8 witness: the index-contiguity theorem instantiated on a concrete
completed scan. -/
theorem screenshot_indices_contiguous_witness :
    capture_property_screenshots (fun _ => 1) 5 1 2 = some (scanTraceEx, 1) ∧
    (captureEvents scanTraceEx).map Prod.fst = List.range ((captureEvents scanTraceEx).length) :=
  ⟨by decide, screenshot_indices_contiguous (fun _ => 1) 5 1 2 scanTraceEx 1 (by decide)⟩

/-- C9 counterexample: at viewport height 1 the scroll step
`int(1 * 0.8) = 0` is not positive (the offset does not advance at all), and
with a perfectly convergent document height (constantly 1) the loop never
exits: no fuel up to 100 completes it (and `scanLoop_zero_step_stuck` shows
no fuel ever does). -/
theorem scan_step_counterexample :
    scrollStep 1 = 0 ∧ scanLoop (fun _ => 1) (scrollStep 1) 100 0 1 0 = none :=
  ⟨rfl, scanLoop_zero_step_stuck 100 0⟩

/-- C9 (amended): for every viewport height `v ≥ 2` the step
`floor(0.8 * v)` is positive and at least one fifth of the viewport height,
and whenever the remeasured document heights are eventually constant the
scan loop terminates: some fuel completes the scan. -/
theorem scan_terminates (sched : Nat → Nat) (v h0 bigN c : Nat) (hv : 2 ≤ v)
    (hconv : ∀ i, bigN ≤ i → sched i = c) :
    0 < scrollStep v ∧ v ≤ 5 * scrollStep v ∧
    ∃ fuel r, capture_property_screenshots sched v h0 fuel = some r := by
  have hstep : 0 < scrollStep v := by rw [scrollStep]; omega
  have hfrac : v ≤ 5 * scrollStep v := by rw [scrollStep]; omega
  refine ⟨hstep, hfrac, ?_⟩
  obtain ⟨bound, hB⟩ := bounded_of_eventually_const bigN sched c hconv
  have hB' : ∀ i, sched i ≤ max bound h0 := fun i => Nat.le_trans (hB i) (Nat.le_max_left ..)
  have hh0 : h0 ≤ max bound h0 := Nat.le_max_right ..
  have hfb : max bound h0 ≤ 0 + (max bound h0) * scrollStep v := by
    have h1 : (1:Nat) ≤ scrollStep v := hstep
    have h2 : (max bound h0) * 1 ≤ (max bound h0) * scrollStep v :=
      Nat.mul_le_mul_left (max bound h0) h1
    omega
  obtain ⟨r, hr⟩ := scanLoop_dom sched (scrollStep v) (max bound h0) hB'
    (max bound h0) 0 h0 0 hh0 hfb
  exact ⟨max bound h0 + 1, _, by rw [capture_property_screenshots, hr, Option.map_some']⟩

/-- C9 witness: the amended termination theorem instantiated at viewport
height 10 and constant document height 20. -/
theorem scan_terminates_witness :
    (2 ≤ 10) ∧
    (0 < scrollStep 10 ∧ 10 ≤ 5 * scrollStep 10 ∧
      ∃ fuel r, capture_property_screenshots (fun _ => 20) 10 20 fuel = some r) :=
  ⟨by decide, scan_terminates (fun _ => 20) 10 20 0 20 (by decide) (fun _ _ => rfl)⟩

/-- C10: every completed scan performs at least one capture (and so returns
at least one screenshot path): even when the stepped loop runs zero
iterations, the final bottom capture still runs. -/
theorem scan_always_captures (sched : Nat → Nat) (v h0 fuel : Nat) (tr : List Ev) (hf : Nat)
    (hdone : capture_property_screenshots sched v h0 fuel = some (tr, hf)) :
    captureEvents tr ≠ [] := by
  obtain ⟨t, cnt, hcall, rfl⟩ := capture_shape sched v h0 fuel tr hf hdone
  intro hemp
  rw [captureEvents_append] at hemp
  have := congrArg List.length hemp
  simp [captureEvents] at this

/-- C10 witness: a scan of a zero-height document completes with zero loop
iterations and still captures one screenshot. -/
theorem scan_always_captures_witness :
    capture_property_screenshots (fun _ => 0) 10 0 1 =
      some ([Ev.scrollTo 0, Ev.capture 0 0, Ev.scrollSmooth 0], 0) ∧
    captureEvents [Ev.scrollTo 0, Ev.capture 0 0, Ev.scrollSmooth 0] ≠ [] :=
  ⟨by decide, scan_always_captures (fun _ => 0) 10 0 1 _ 0 (by decide)⟩

end REBA
